import Mathlib

/-!
Shallow embedding of the light-set algebra and scheduling/coordination
core of the marvin repository (packages `lights` and `utils`), together
with theorems settling the frozen claims about its specification.

Modelling conventions:
* Go strings are modelled as `List Char`.
* `lights.Set` (`map[int]bool`, where `nil` is the universal set) is
  modelled by `GoSet`: the `all` constructor is the `nil` sentinel and
  `conc s` is a concrete map whose keys mapped to `true` form `s`.
  Every map the library itself builds only stores `true` values, so the
  key set determines the map.
* A Go `panic` is modelled by `Option` (`none` = panic) or by an
  explicit result constructor.
-/

namespace Marvin

/-- Model of `lights.Set`: `all` is the `nil` sentinel (all lights),
`conc s` is a concrete map whose true-valued keys are `s`. -/
inductive GoSet where
  | all : GoSet
  | conc : Finset Int → GoSet
deriving DecidableEq

namespace GoSet

/-- `Set.IsAll`: true exactly for the `nil` sentinel. -/
def IsAll : GoSet → Bool
  | .all => true
  | .conc _ => false

/-- `Set.IsNone`: `nil` is not none; a concrete map is none when no key
is mapped to true. -/
def IsNone : GoSet → Bool
  | .all => false
  | .conc s => decide (s = ∅)

/-- `lights.New`: inserts every given id with value true; no validation. -/
def New (lightIds : List Int) : GoSet :=
  .conc lightIds.toFinset

/-- `Set.OverlapsWith`. The source swaps the operands when the first map
is larger, which does not change the answer, so the swap is omitted. -/
def OverlapsWith : GoSet → GoSet → Bool
  | .all, other => !other.IsNone
  | .conc s, .all => !(GoSet.conc s).IsNone
  | .conc s, .conc t => decide ((s ∩ t).Nonempty)

/-- `Set.Intersect` (the size-based operand swap in the source does not
change the resulting map). -/
def Intersect : GoSet → GoSet → GoSet
  | .all, other => other
  | .conc s, .all => .conc s
  | .conc s, .conc t => .conc (s ∩ t)

/-- `Set.Subtract`; `none` models the panic on a `nil` receiver.
A `nil` subtrahend returns the package-level `None` (empty) set. -/
def Subtract : GoSet → GoSet → Option GoSet
  | .all, _ => none
  | .conc _, .all => some (.conc ∅)
  | .conc s, .conc t => some (.conc (s \ t))

/-- `Set.Add`: union, `nil` (all) absorbs. -/
def Add : GoSet → GoSet → GoSet
  | .all, _ => .all
  | .conc _, .all => .all
  | .conc s, .conc t => .conc (s ∪ t)

/-- `Set.Slice`: ascending list of true-valued keys plus an ok flag that
is false exactly when the instance represents no lights. -/
def Slice : GoSet → List Int × Bool
  | .all => ([], true)
  | .conc s => (s.sort (· ≤ ·), decide s.Nonempty)

end GoSet

/-! ### Model of the Go string helpers used by `Parse` and `Set.String` -/

/-- Model of `unicode.IsSpace`: the White_Space code points — `\t`,
`\n`, `\v`, `\f`, `\r`, space, NEL, NBSP, and the non-Latin-1
White_Space ranges (Ogham space mark, U+2000..U+200A, line and
paragraph separators, narrow and medium spaces, ideographic space). -/
def isSpaceGo (c : Char) : Bool :=
  (9 ≤ c.toNat && c.toNat ≤ 13) || c.toNat = 32 || c.toNat = 0x85 ||
    c.toNat = 0xA0 || c.toNat = 0x1680 ||
    (0x2000 ≤ c.toNat && c.toNat ≤ 0x200A) || c.toNat = 0x2028 ||
    c.toNat = 0x2029 || c.toNat = 0x202F || c.toNat = 0x205F ||
    c.toNat = 0x3000

/-- Model of `strings.TrimSpace`: drop leading and trailing whitespace. -/
def trimSpace (s : List Char) : List Char :=
  ((s.dropWhile isSpaceGo).reverse.dropWhile isSpaceGo).reverse

/-- Model of `strings.Split(s, ",")`: the substrings between commas
(`[[]]` for the empty string). -/
def splitComma : List Char → List (List Char)
  | [] => [[]]
  | c :: rest =>
    match splitComma rest with
    | [] => [[]]
    | p :: ps => if c = ',' then [] :: p :: ps else (c :: p) :: ps

/-- Model of `strings.Join(parts, ",")`. -/
def joinComma : List (List Char) → List Char
  | [] => []
  | [p] => p
  | p :: ps => p ++ ',' :: joinComma ps

/-- Numeric value of a decimal digit character. -/
def digitVal (c : Char) : Nat := c.toNat - 48

/-- Accumulate the decimal value of a digit string, most significant
digit first. -/
def digitsVal (ds : List Char) : Nat :=
  ds.foldl (fun a c => 10 * a + digitVal c) 0

/-- The largest value of the 64-bit Go `int` type. -/
def int64Max : Int := 9223372036854775807

/-- The smallest value of the 64-bit Go `int` type. -/
def int64Min : Int := -9223372036854775808

/-- Model of `strconv.Atoi` on a 64-bit platform: optional sign
followed by a non-empty run of decimal digits; anything else is a
parse failure (`none`), and a numeral whose value falls outside the
64-bit `int` type fails with `ErrRange` (also `none` — `Parse` only
looks at `err != nil`). -/
def atoi (s : List Char) : Option Int :=
  match s with
  | [] => none
  | c :: cs =>
    if c = '-' then
      if !cs.isEmpty && cs.all Char.isDigit then
        if -(digitsVal cs : Int) < int64Min then none
        else some (-(digitsVal cs : Int))
      else none
    else if c = '+' then
      if !cs.isEmpty && cs.all Char.isDigit then
        if (digitsVal cs : Int) > int64Max then none
        else some ((digitsVal cs : Int))
      else none
    else
      if (c :: cs).all Char.isDigit then
        if (digitsVal (c :: cs) : Int) > int64Max then none
        else some ((digitsVal (c :: cs) : Int))
      else none

/-- The character for a single decimal digit. -/
def digitChar : Nat → Char
  | 0 => '0'
  | 1 => '1'
  | 2 => '2'
  | 3 => '3'
  | 4 => '4'
  | 5 => '5'
  | 6 => '6'
  | 7 => '7'
  | 8 => '8'
  | 9 => '9'
  | _ => '*'

/-- Digit characters of a natural number, most significant first
(fuel-based so that the kernel can evaluate it; `fuel ≥ n` suffices). -/
def itoaNatAux : Nat → Nat → List Char
  | 0, _ => []
  | fuel + 1, n =>
    if n = 0 then [] else itoaNatAux fuel (n / 10) ++ [digitChar (n % 10)]

/-- Decimal rendering of a natural number (model of `strconv.Itoa` on
non-negative values). -/
def itoaNat (n : Nat) : List Char :=
  if n = 0 then ['0'] else itoaNatAux n n

/-- Model of `strconv.Itoa`: decimal digits, with a leading minus sign
for negative values. -/
def itoa (i : Int) : List Char :=
  if i < 0 then '-' :: itoaNat (-i).toNat else itoaNat i.toNat

namespace GoSet

/-- `Set.String`: "All" for the `nil` sentinel, "None" when `Slice`
reports no lights, otherwise the ascending ids joined by commas. -/
def string (l : GoSet) : List Char :=
  match l with
  | .all => ['A', 'l', 'l']
  | .conc _ =>
    let sl := l.Slice
    if !sl.2 then ['N', 'o', 'n', 'e']
    else joinComma (sl.1.map itoa)

end GoSet

/-- The two error values `lights.Parse` can produce: a `strconv.Atoi`
failure, or the explicit "Only positive light Ids allowed." error. -/
inductive ParseErr where
  | atoiErr
  | nonPositive
deriving DecidableEq

instance exceptDecEq {ε α : Type} [DecidableEq ε] [DecidableEq α] :
    DecidableEq (Except ε α) := fun x y =>
  match x, y with
  | .ok a, .ok b =>
    if h : a = b then .isTrue (h ▸ rfl)
    else .isFalse (fun hh => h (Except.ok.inj hh))
  | .ok _, .error _ => .isFalse (fun hh => Except.noConfusion hh)
  | .error _, .ok _ => .isFalse (fun hh => Except.noConfusion hh)
  | .error e, .error f =>
    if h : e = f then .isTrue (h ▸ rfl)
    else .isFalse (fun hh => h (Except.error.inj hh))

/-- The token loop of `lights.Parse`: parse each trimmed token, failing
on the first non-integer or non-positive one, inserting ids into the
map under construction (deduplication is the map insert itself). -/
def parseLoop : List (List Char) → Finset Int → Except ParseErr (Finset Int)
  | [], acc => .ok acc
  | p :: ps, acc =>
    match atoi p with
    | none => .error .atoiErr
    | some light =>
      if light ≤ 0 then .error .nonPositive
      else parseLoop ps (insert light acc)

/-- `lights.Parse`: trim; empty text is the universal set (the `nil`
zero value of the named result); otherwise split on commas, trim each
part and run the token loop. -/
def Parse (s : List Char) : Except ParseErr GoSet :=
  let t := trimSpace s
  if t = [] then .ok .all
  else
    let parts := (splitComma t).map trimSpace
    match parseLoop parts ∅ with
    | .error e => .error e
    | .ok lightSet => .ok (.conc lightSet)

/-! ### Admission engine (`utils.MultiExecutor`)

The only part of a hue task visible to the admission algorithm is its
`UsedLights` method, modelled as a function `GoSet → GoSet`; the running
tasks are visible through the `Ls` field of their wrappers, modelled as
the list of those light sets. `Start` returning `nil` (declining) is
`Option.none`; a successful start records the `Ls` the wrapper is
submitted with. -/

/-- Outcome of a `MaybeStart` call: a panic inside `Subtract`, a `nil`
return (declined, or `Start` declined), or a task started with the
recorded wrapper light set. -/
inductive MSResult where
  | panicked
  | noStart
  | started (ls : GoSet)
deriving DecidableEq

/-- True-valued keys of a concrete set (`∅` for the sentinel, which the
algorithm never feeds to it). -/
def GoSet.concKeys : GoSet → Finset Int
  | .all => ∅
  | .conc s => s

/-- `MultiExecutor.Start`: recompute `UsedLights`, decline when it is
none, otherwise submit a wrapper carrying the used lights. -/
def Start (used : GoSet → GoSet) (lightSet : GoSet) : Option GoSet :=
  let usedLights := used lightSet
  if usedLights.IsNone then none else some usedLights

/-- `Start` seen as a `MaybeStart` outcome. -/
def startResult (used : GoSet → GoSet) (lightSet : GoSet) : MSResult :=
  match Start used lightSet with
  | none => .noStart
  | some u => .started u

/-- Union of the light sets of the running tasks (the `lightsInUse`
accumulator; the algorithm has already declined when any of them is the
sentinel, so taking keys is exact). -/
def inUseOf (running : List GoSet) : Finset Int :=
  running.foldl (fun acc r => acc ∪ r.concKeys) ∅

/-- `MultiExecutor.MaybeStart`. The source interleaves the all-check and
the `MutableAdd` accumulation in one loop with an early return; since a
universal running set makes it return before `lightsInUse` is ever used,
checking first and folding after is observationally identical. -/
def MaybeStart (used : GoSet → GoSet) (running : List GoSet)
    (lightSet : GoSet) : MSResult :=
  if running = [] then startResult used lightSet
  else
    let neededLights := used lightSet
    if neededLights.IsNone then .noStart
    else if neededLights.IsAll then .noStart
    else if running.any GoSet.IsAll then .noStart
    else
      match neededLights.Subtract (.conc (inUseOf running)) with
      | none => .panicked
      | some neededAndAvailableLights =>
        if neededAndAvailableLights.IsNone then .noStart
        else
          let lightsThatWillBeUsed := used neededAndAvailableLights
          if lightsThatWillBeUsed.IsNone then .noStart
          else
            match lightsThatWillBeUsed.Subtract neededAndAvailableLights with
            | none => .panicked
            | some diff =>
              if diff.IsNone then startResult used lightsThatWillBeUsed
              else .noStart

/-! ### Timed promotion tasks (`utils.TimerTaskWrapper`) -/

/-- A `TimerTaskWrapper`: hue task id, bound light set, trigger time.
Times and durations are in nanoseconds (`time.Duration` units). -/
structure TimerTaskWrapper where
  hId : Int
  ls : GoSet
  startTime : Int
deriving DecidableEq

/-- Observable outcome of one run of `TimerTaskWrapper.Do`: how long the
execution slept (if it slept), and the `(H, Ls)` submitted to the target
executor (its `Start`), if the sleep completed. -/
structure TimerDoOutcome where
  sleptFor : Option Int
  submitted : Option (Int × GoSet)
deriving DecidableEq

/-- `TimerTaskWrapper.Do`: `d := StartTime.Sub(e.Now())`; return if
`d ≤ 0`; otherwise sleep `d` and submit `(H, Ls)` to the executor only
when the sleep finished without cancellation. `now` models `e.Now()`
(the clock of the execution), `sleepCompleted` whether `e.Sleep(d)`
returned true. -/
def TimerTaskWrapper.Do (t : TimerTaskWrapper) (now : Int)
    (sleepCompleted : Bool) : TimerDoOutcome :=
  let d := t.startTime - now
  if d ≤ 0 then ⟨none, none⟩
  else if sleepCompleted then ⟨some d, some (t.hId, t.ls)⟩
  else ⟨some d, none⟩

def nsSecond : Int := 1000000000
def nsMinute : Int := 60 * nsSecond
def nsHour : Int := 60 * nsMinute

/-- `TimerTaskWrapper.TimeLeft`. -/
def TimerTaskWrapper.TimeLeft (t : TimerTaskWrapper) (now : Int) : Int :=
  t.startTime - now

/-- `%02d`: decimal rendering left-padded with zeros to width two. -/
def pad2 (n : Nat) : List Char :=
  if n < 10 then '0' :: itoaNat n else itoaNat n

/-- `TimerTaskWrapper.TimeLeftStr`: add one second, floor at zero, then
`H:MM:SS` when at least an hour remains, else `M:SS`. The duration is
non-negative after the floor, so the truncated `int64` division and
remainder agree with `Nat` division and remainder. -/
def TimerTaskWrapper.TimeLeftStr (t : TimerTaskWrapper) (now : Int) :
    List Char :=
  let d := t.TimeLeft now + nsSecond
  let d := if d < 0 then 0 else d
  let dn := d.toNat
  if dn ≥ nsHour.toNat then
    itoaNat (dn / nsHour.toNat) ++ ':' :: pad2 ((dn % nsHour.toNat) / nsMinute.toNat)
      ++ ':' :: pad2 ((dn % nsMinute.toNat) / nsSecond.toNat)
  else
    itoaNat (dn / nsMinute.toNat) ++ ':' :: pad2 ((dn % nsMinute.toNat) / nsSecond.toNat)

/-! ### Task registry (`utils.TaskCollection`) -/

/-- A task object held by the registry. `ref` models the pointer value
(Go interface equality on `*HueTaskWrapper` values compares pointers);
`taskId` models the value content of the object. Two distinct objects
(`ref` differs) may carry equal content. -/
structure TaskObj where
  ref : Nat
  taskId : List Char
deriving DecidableEq

/-- `utils.TaskCollection`: the ordered list of (task, execution) pairs;
executions are modelled by identifying handles. -/
structure TaskCollection where
  tasks : List (TaskObj × Nat)
deriving DecidableEq

/-- First index whose task is the same object (`==` on the interface
values, i.e. pointer equality). -/
def findTaskIdx (t : TaskObj) : List (TaskObj × Nat) → Option Nat
  | [] => none
  | p :: ps =>
    if p.1.ref = t.ref then some 0
    else (findTaskIdx t ps).map (· + 1)

/-- `TaskCollection.Remove`: locate the first pairing holding the same
object and splice it out (`copy` + reslice in the source is exactly
`take idx ++ drop (idx+1)`); leave the collection unchanged when no
pairing holds it. -/
def TaskCollection.Remove (c : TaskCollection) (t : TaskObj) :
    TaskCollection :=
  match findTaskIdx t c.tasks with
  | none => c
  | some idx => ⟨c.tasks.take idx ++ c.tasks.drop (idx + 1)⟩

/-! ### Helper lemmas: decimal rendering and parsing -/

/-- The ten decimal digit characters. -/
def digitList : List Char := ['0', '1', '2', '3', '4', '5', '6', '7', '8', '9']

lemma digitChar_mem_digitList {d : Nat} (hd : d < 10) :
    digitChar d ∈ digitList := by
  interval_cases d <;> decide

lemma digitVal_digitChar {d : Nat} (hd : d < 10) :
    digitVal (digitChar d) = d := by
  interval_cases d <;> decide

lemma mem_digitList_facts {c : Char} (h : c ∈ digitList) :
    c.isDigit = true ∧ isSpaceGo c = false ∧ c ≠ ',' ∧ c ≠ '-' ∧ c ≠ '+' := by
  fin_cases h <;> exact ⟨by decide, by decide, by decide, by decide, by decide⟩

lemma itoaNatAux_mem_digitList :
    ∀ (fuel n : Nat), n ≤ fuel → ∀ c ∈ itoaNatAux fuel n, c ∈ digitList := by
  intro fuel
  induction fuel with
  | zero => intro n _ c hc; simp [itoaNatAux] at hc
  | succ fuel ih =>
    intro n hn c hc
    by_cases h0 : n = 0
    · simp [itoaNatAux, h0] at hc
    · rw [itoaNatAux, if_neg h0] at hc
      rcases List.mem_append.mp hc with h | h
      · exact ih (n / 10) (by omega) c h
      · rcases List.mem_singleton.mp h with rfl
        exact digitChar_mem_digitList (Nat.mod_lt _ (by omega))

lemma itoaNatAux_ne_nil {fuel n : Nat} (hn : 0 < n) (hfuel : n ≤ fuel) :
    itoaNatAux fuel n ≠ [] := by
  cases fuel with
  | zero => omega
  | succ fuel => rw [itoaNatAux, if_neg (by omega)]; simp

lemma foldl_digitsVal_itoaNatAux :
    ∀ (fuel n : Nat), n ≤ fuel → ∀ a : Nat,
      List.foldl (fun a c => 10 * a + digitVal c) a (itoaNatAux fuel n) =
        a * 10 ^ (itoaNatAux fuel n).length + n := by
  intro fuel
  induction fuel with
  | zero =>
    intro n hn a
    have : n = 0 := by omega
    subst this
    simp [itoaNatAux]
  | succ fuel ih =>
    intro n hn a
    by_cases h0 : n = 0
    · subst h0; simp [itoaNatAux]
    · rw [itoaNatAux, if_neg h0]
      rw [List.foldl_append, ih (n / 10) (by omega) a]
      simp only [List.foldl_cons, List.foldl_nil, List.length_append,
        List.length_singleton]
      rw [digitVal_digitChar (Nat.mod_lt _ (by omega)), pow_succ, ← mul_assoc]
      generalize a * 10 ^ (itoaNatAux fuel (n / 10)).length = y
      omega

lemma digitsVal_itoaNat {n : Nat} (hn : 0 < n) :
    digitsVal (itoaNat n) = n := by
  rw [itoaNat, if_neg (by omega), digitsVal,
    foldl_digitsVal_itoaNatAux n n le_rfl 0]
  simp

lemma itoaNat_mem_digitList {n : Nat} : ∀ c ∈ itoaNat n, c ∈ digitList := by
  intro c hc
  rw [itoaNat] at hc
  split at hc
  · rcases List.mem_singleton.mp hc with rfl; decide
  · exact itoaNatAux_mem_digitList n n le_rfl c hc

lemma itoaNat_ne_nil {n : Nat} : itoaNat n ≠ [] := by
  rw [itoaNat]
  split
  · simp
  · exact itoaNatAux_ne_nil (by omega) le_rfl

lemma atoi_itoaNat {n : Nat} (hn : 0 < n)
    (hrep : n ≤ 9223372036854775807) :
    atoi (itoaNat n) = some (n : Int) := by
  obtain ⟨c, cs, hcs⟩ : ∃ c cs, itoaNat n = c :: cs := by
    cases h : itoaNat n with
    | nil => exact absurd h itoaNat_ne_nil
    | cons c cs => exact ⟨c, cs, rfl⟩
  have hmem : ∀ x ∈ itoaNat n, x ∈ digitList := itoaNat_mem_digitList
  have hc : c ∈ digitList := hmem c (by rw [hcs]; exact List.mem_cons_self _ _)
  have hfacts := mem_digitList_facts hc
  have hall : (c :: cs).all Char.isDigit = true := by
    rw [List.all_eq_true]
    intro x hx
    exact (mem_digitList_facts (by rw [hcs] at hmem; exact hmem x hx)).1
  have hlt : ¬ ((digitsVal (itoaNat n) : Int) > int64Max) := by
    rw [digitsVal_itoaNat hn]
    simp only [int64Max]
    omega
  rw [hcs] at hlt
  rw [hcs, atoi, if_neg (by simpa using hfacts.2.2.2.1),
    if_neg (by simpa using hfacts.2.2.2.2), if_pos hall, if_neg hlt]
  rw [← hcs, digitsVal_itoaNat hn]

lemma itoa_pos_eq {i : Int} (hi : 0 < i) : itoa i = itoaNat i.toNat := by
  rw [itoa, if_neg (by omega)]

lemma atoi_itoa_pos {i : Int} (hi : 0 < i) (hrep : i ≤ int64Max) :
    atoi (itoa i) = some i := by
  have h2 : i.toNat ≤ 9223372036854775807 := by
    simp only [int64Max] at hrep
    omega
  rw [itoa_pos_eq hi, atoi_itoaNat (by omega) h2]
  congr 1
  omega

lemma itoa_pos_mem_digitList {i : Int} (hi : 0 < i) :
    ∀ c ∈ itoa i, c ∈ digitList := by
  rw [itoa_pos_eq hi]
  exact itoaNat_mem_digitList

lemma itoa_ne_nil {i : Int} : itoa i ≠ [] := by
  rw [itoa]
  split
  · simp
  · exact itoaNat_ne_nil

/-! ### Helper lemmas: splitting, joining and trimming -/

lemma joinComma_cons_cons (p q : List Char) (qs : List (List Char)) :
    joinComma (p :: q :: qs) = p ++ ',' :: joinComma (q :: qs) := by
  rw [joinComma]
  simp

lemma splitComma_ne_nil (l : List Char) : splitComma l ≠ [] := by
  cases l with
  | nil => simp [splitComma]
  | cons c rest =>
    rw [splitComma]
    rcases h : splitComma rest with _ | ⟨p, ps⟩
    · simp
    · dsimp only
      split <;> simp

lemma splitComma_no_comma {l : List Char} (h : ',' ∉ l) :
    splitComma l = [l] := by
  induction l with
  | nil => rfl
  | cons c rest ih =>
    have hc : c ≠ ',' := fun hc => h (hc ▸ List.mem_cons_self _ _)
    have hrest : ',' ∉ rest := fun hr => h (List.mem_cons_of_mem _ hr)
    rw [splitComma, ih hrest]
    simp [fun hc' => hc (hc' : c = ',')]

lemma splitComma_append {p : List Char} (hp : ',' ∉ p) (rest : List Char) :
    splitComma (p ++ ',' :: rest) = p :: splitComma rest := by
  induction p with
  | nil =>
    simp only [List.nil_append]
    rw [splitComma]
    rcases h : splitComma rest with _ | ⟨q, qs⟩
    · exact absurd h (splitComma_ne_nil rest)
    · simp
  | cons c p' ih =>
    have hc : c ≠ ',' := fun hc => hp (hc ▸ List.mem_cons_self _ _)
    have hp' : ',' ∉ p' := fun hr => hp (List.mem_cons_of_mem _ hr)
    simp only [List.cons_append]
    rw [splitComma, ih hp']
    simp [fun hc' => hc (hc' : c = ',')]

lemma splitComma_joinComma :
    ∀ (ps : List (List Char)), ps ≠ [] → (∀ p ∈ ps, ',' ∉ p) →
      splitComma (joinComma ps) = ps := by
  intro ps
  induction ps with
  | nil => intro h; exact absurd rfl h
  | cons p ps ih =>
    intro _ hmem
    cases ps with
    | nil =>
      rw [joinComma]
      exact splitComma_no_comma (hmem p (List.mem_cons_self _ _))
    | cons q qs =>
      rw [joinComma_cons_cons, splitComma_append (hmem p (List.mem_cons_self _ _)),
        ih (by simp) (fun r hr => hmem r (List.mem_cons_of_mem _ hr))]

lemma joinComma_ne_nil {p : List Char} (hp : p ≠ []) (ps : List (List Char)) :
    joinComma (p :: ps) ≠ [] := by
  cases ps with
  | nil => rw [joinComma]; exact hp
  | cons q qs => rw [joinComma_cons_cons]; simp [hp]

lemma joinComma_mem :
    ∀ (ps : List (List Char)) (c : Char), c ∈ joinComma ps →
      c = ',' ∨ ∃ p ∈ ps, c ∈ p := by
  intro ps
  induction ps with
  | nil => intro c hc; simp [joinComma] at hc
  | cons p ps ih =>
    intro c hc
    cases ps with
    | nil =>
      rw [joinComma] at hc
      exact Or.inr ⟨p, List.mem_cons_self _ _, hc⟩
    | cons q qs =>
      rw [joinComma_cons_cons] at hc
      rcases List.mem_append.mp hc with h | h
      · exact Or.inr ⟨p, List.mem_cons_self _ _, h⟩
      · rcases List.mem_cons.mp h with rfl | h
        · exact Or.inl rfl
        · rcases ih c h with h' | ⟨r, hr, hcr⟩
          · exact Or.inl h'
          · exact Or.inr ⟨r, List.mem_cons_of_mem _ hr, hcr⟩

lemma dropWhile_of_no_space {l : List Char}
    (h : ∀ c ∈ l, isSpaceGo c = false) : l.dropWhile isSpaceGo = l := by
  cases l with
  | nil => rfl
  | cons c rest =>
    rw [List.dropWhile_cons, h c (List.mem_cons_self _ _)]
    simp

lemma trimSpace_of_no_space {l : List Char}
    (h : ∀ c ∈ l, isSpaceGo c = false) : trimSpace l = l := by
  rw [trimSpace, dropWhile_of_no_space h,
    dropWhile_of_no_space (fun c hc => h c (List.mem_reverse.mp hc)),
    List.reverse_reverse]

/-! ### Helper lemmas: the `Parse` token loop -/

lemma parseLoop_map_itoa :
    ∀ (vals : List Int), (∀ i ∈ vals, 0 < i) →
      (∀ i ∈ vals, i ≤ int64Max) → ∀ acc : Finset Int,
      parseLoop (vals.map itoa) acc = .ok (acc ∪ vals.toFinset) := by
  intro vals
  induction vals with
  | nil => intro _ _ acc; simp [parseLoop]
  | cons v vs ih =>
    intro h hrep acc
    have hv : 0 < v := h v (List.mem_cons_self _ _)
    rw [List.map_cons, parseLoop,
      atoi_itoa_pos hv (hrep v (List.mem_cons_self _ _))]
    dsimp only
    rw [if_neg (by omega)]
    rw [ih (fun i hi => h i (List.mem_cons_of_mem _ hi))
      (fun i hi => hrep i (List.mem_cons_of_mem _ hi)) (insert v acc)]
    congr 1
    rw [List.toFinset_cons, Finset.insert_union, Finset.union_insert]

/-- The core round trip at the level of id lists: parsing the
comma-joined decimal rendering of a non-empty list of positive ids
yields the concrete set of exactly those ids. -/
lemma Parse_joinComma_itoa (l : List Int) (hne : l ≠ [])
    (hpos : ∀ i ∈ l, 0 < i) (hrep : ∀ i ∈ l, i ≤ int64Max) :
    Parse (joinComma (l.map itoa)) = .ok (.conc l.toFinset) := by
  have htokchars : ∀ p ∈ l.map itoa, ∀ c ∈ p, c ∈ digitList := by
    intro p hp c hc
    rcases List.mem_map.mp hp with ⟨i, hi, rfl⟩
    exact itoa_pos_mem_digitList (hpos i hi) c hc
  have hchars : ∀ c ∈ joinComma (l.map itoa), isSpaceGo c = false := by
    intro c hc
    rcases joinComma_mem _ c hc with rfl | ⟨p, hp, hcp⟩
    · decide
    · exact (mem_digitList_facts (htokchars p hp c hcp)).2.1
  have htoknospace : ∀ p ∈ l.map itoa, ∀ c ∈ p, isSpaceGo c = false :=
    fun p hp c hc => (mem_digitList_facts (htokchars p hp c hc)).2.1
  have htoknocomma : ∀ p ∈ l.map itoa, ',' ∉ p := by
    intro p hp hc
    exact (mem_digitList_facts (htokchars p hp ',' hc)).2.2.1 rfl
  obtain ⟨i, l', rfl⟩ : ∃ i l', l = i :: l' := by
    cases l with
    | nil => exact absurd rfl hne
    | cons i l' => exact ⟨i, l', rfl⟩
  have hjne : joinComma ((i :: l').map itoa) ≠ [] := by
    rw [List.map_cons]
    exact joinComma_ne_nil itoa_ne_nil _
  rw [Parse]
  simp only [trimSpace_of_no_space hchars, if_neg hjne]
  rw [splitComma_joinComma _ (by simp) htoknocomma]
  have htrim : ((i :: l').map itoa).map trimSpace = (i :: l').map itoa := by
    apply List.map_congr_left ?_ |>.trans (List.map_id _)
    intro p hp
    exact trimSpace_of_no_space (htoknospace p hp)
  rw [htrim, parseLoop_map_itoa _ hpos hrep ∅]
  simp

/-! ### Claim theorems -/

/-- C5: for all concrete light sets `A = conc s` and `B = conc t`,
`OverlapsWith` is commutative, `Intersect` is commutative, and
`A.Add(B).IsAll()` holds iff `A.IsAll()` or `B.IsAll()`. -/
theorem lightset_algebra (s t : Finset Int) :
    (GoSet.conc s).OverlapsWith (GoSet.conc t) =
      (GoSet.conc t).OverlapsWith (GoSet.conc s) ∧
    (GoSet.conc s).Intersect (GoSet.conc t) =
      (GoSet.conc t).Intersect (GoSet.conc s) ∧
    (((GoSet.conc s).Add (GoSet.conc t)).IsAll = true ↔
      ((GoSet.conc s).IsAll = true ∨ (GoSet.conc t).IsAll = true)) := by
  refine ⟨?_, ?_, ?_⟩
  · simp [GoSet.OverlapsWith, Finset.inter_comm]
  · simp [GoSet.Intersect, Finset.inter_comm]
  · simp [GoSet.Add, GoSet.IsAll]

/-- C3: `Parse` applied to the `String` rendering of a concrete,
non-empty light set returns that very set; `Parse` of the empty string
returns the universal set; and the rendered `"None"` string does not
re-parse to the none value — it is a parse error. The hypotheses state
the domain of realizable light sets: members are positive (the
data-model invariant) values of the 64-bit Go `int` type (the member
type of `map[int]bool`). -/
theorem parse_string_roundtrip (s : Finset Int) (hne : s.Nonempty)
    (hpos : ∀ i ∈ s, 0 < i) (hrep : ∀ i ∈ s, i ≤ int64Max) :
    Parse (GoSet.string (GoSet.conc s)) = .ok (GoSet.conc s) ∧
    Parse [] = .ok GoSet.all ∧
    GoSet.string (GoSet.conc ∅) = ['N', 'o', 'n', 'e'] ∧
    Parse ['N', 'o', 'n', 'e'] = .error ParseErr.atoiErr := by
  refine ⟨?_, by decide, by decide, by decide⟩
  have hstring : GoSet.string (GoSet.conc s) =
      joinComma ((s.sort (· ≤ ·)).map itoa) := by
    rw [GoSet.string]
    simp [GoSet.Slice, hne]
  rw [hstring]
  have hlne : s.sort (· ≤ ·) ≠ [] := by
    intro h
    have hlen := Finset.length_sort (α := Int) (· ≤ ·) (s := s)
    rw [h] at hlen
    have := Finset.card_pos.mpr hne
    simp at hlen
    omega
  have hlpos : ∀ i ∈ s.sort (· ≤ ·), 0 < i := fun i hi =>
    hpos i ((Finset.mem_sort (· ≤ ·)).mp hi)
  have hlrep : ∀ i ∈ s.sort (· ≤ ·), i ≤ int64Max := fun i hi =>
    hrep i ((Finset.mem_sort (· ≤ ·)).mp hi)
  rw [Parse_joinComma_itoa _ hlne hlpos hlrep, Finset.sort_toFinset]

/-- C3 witness: the example set from the spec. -/
theorem parse_string_roundtrip_witness :
    Parse (GoSet.string (GoSet.conc ({2, 3, 4, 5, 8, 9, 10} : Finset Int))) =
      .ok (GoSet.conc ({2, 3, 4, 5, 8, 9, 10} : Finset Int)) :=
  (parse_string_roundtrip {2, 3, 4, 5, 8, 9, 10} (by decide) (by decide)
    (by decide)).1

/-! ### C4: `Parse` against the description in the spec -/

/-- Following the words of the spec (as amended): a trimmed token
contributes a value exactly when `strconv.Atoi` accepts it — a numeral
representable in the 64-bit `int` type — with a positive value. -/
def tokenVal (t : List Char) : Option Int :=
  match atoi t with
  | none => none
  | some n => if 0 < n then some n else none

/-- Following the words of the spec (§4.1 `Parse`, as amended): empty
or whitespace-only text yields the universal set; otherwise split on
commas, trim each token, fail when any token is not a positive
representable integer, and on success collect the deduplicated
identifiers. -/
def ParseSpec (s : List Char) : Option GoSet :=
  let t := trimSpace s
  if t = [] then some GoSet.all
  else
    let toks := (splitComma t).map trimSpace
    if toks.all (fun p => (tokenVal p).isSome) then
      some (GoSet.conc (toks.filterMap tokenVal).toFinset)
    else none

lemma exceptToOption_ok {e a : Type} [DecidableEq e] (x : a) :
    (Except.ok x : Except e a).toOption = some x := rfl

lemma exceptToOption_error {e a : Type} [DecidableEq e] (err : e) :
    (Except.error err : Except e a).toOption = (none : Option a) := rfl

lemma tokenVal_isSome_iff {p : List Char} :
    (tokenVal p).isSome = true ↔ ∃ n : Int, atoi p = some n ∧ 0 < n := by
  rw [tokenVal]
  rcases h : atoi p with _ | n
  · simp
  · dsimp only
    by_cases hn : 0 < n
    · rw [if_pos hn]
      exact iff_of_true rfl ⟨n, rfl, hn⟩
    · rw [if_neg hn]
      constructor
      · intro hh; exact absurd hh (by simp)
      · rintro ⟨m, hm, hmpos⟩
        rcases Option.some.inj hm with rfl
        exact absurd hmpos hn

lemma parseLoop_ok_of_all_good :
    ∀ (toks : List (List Char)) (acc : Finset Int),
      (∀ p ∈ toks, (tokenVal p).isSome = true) →
      parseLoop toks acc = .ok (acc ∪ (toks.filterMap tokenVal).toFinset) := by
  intro toks
  induction toks with
  | nil => intro acc _; simp [parseLoop]
  | cons p ps ih =>
    intro acc h
    obtain ⟨n, hn, hnpos⟩ :=
      tokenVal_isSome_iff.mp (h p (List.mem_cons_self _ _))
    have htv : tokenVal p = some n := by
      rw [tokenVal, hn]
      dsimp only
      rw [if_pos hnpos]
    rw [parseLoop, hn]
    dsimp only
    rw [if_neg (by omega), ih _ (fun q hq => h q (List.mem_cons_of_mem _ hq)),
      List.filterMap_cons_some htv, List.toFinset_cons,
      Finset.insert_union, Finset.union_insert]

lemma parseLoop_err_of_bad :
    ∀ (toks : List (List Char)) (acc : Finset Int),
      (∃ p ∈ toks, tokenVal p = none) →
      ∃ e, parseLoop toks acc = .error e := by
  intro toks
  induction toks with
  | nil => intro acc h; simp at h
  | cons p ps ih =>
    intro acc h
    rcases hpv : tokenVal p with _ | n
    · rw [tokenVal] at hpv
      rcases ha : atoi p with _ | m
      · exact ⟨.atoiErr, by rw [parseLoop, ha]⟩
      · rw [ha] at hpv
        dsimp only at hpv
        have hm : ¬ 0 < m := by
          intro hm
          rw [if_pos hm] at hpv
          exact Option.noConfusion hpv
        refine ⟨.nonPositive, ?_⟩
        rw [parseLoop, ha]
        dsimp only
        rw [if_pos (by omega)]
    · rcases h with ⟨q, hq, hqbad⟩
      have hqps : q ∈ ps := by
        rcases List.mem_cons.mp hq with rfl | hmem
        · rw [hqbad] at hpv; exact Option.noConfusion hpv
        · exact hmem
      have hsome : (tokenVal p).isSome = true := by rw [hpv]; rfl
      obtain ⟨m, hm, hmpos⟩ := tokenVal_isSome_iff.mp hsome
      obtain ⟨e, he⟩ := ih (insert m acc) ⟨q, hqps, hqbad⟩
      refine ⟨e, ?_⟩
      rw [parseLoop, hm]
      dsimp only
      rw [if_neg (by omega)]
      exact he

/-- The decimal numeral for 2^63, one past the largest 64-bit `int`. -/
def overflowNumeral : List Char :=
  ['9', '2', '2', '3', '3', '7', '2', '0', '3', '6', '8', '5', '4', '7',
   '7', '5', '8', '0', '8']

/-- C4 counterexample: the text "9223372036854775808" is its own single
comma-separated trimmed token, consists only of decimal digits and
denotes the positive value 2^63 — so the claim says `Parse` must
succeed — yet `Parse` returns an error, because `strconv.Atoi` fails
with `ErrRange` on a value exceeding the 64-bit `int` type. -/
theorem parse_overflow_counterexample :
    Parse overflowNumeral = .error ParseErr.atoiErr ∧
    (splitComma (trimSpace overflowNumeral)).map trimSpace =
      [overflowNumeral] ∧
    overflowNumeral.all Char.isDigit = true ∧
    digitsVal overflowNumeral = 9223372036854775808 := by
  decide

/-- C4 (amended): `Parse` agrees with the description in the spec once
the error condition also covers the `ErrRange` path of `strconv.Atoi`:
empty or whitespace-only text yields the universal set, otherwise it
fails exactly when some comma-separated, trimmed token is not a
positive integer representable in the 64-bit `int` type (non-numeric,
zero, negative, or out of range), and on success it returns the
deduplicated set of the parsed identifiers; the failure is an `error`
value handed back synchronously to the caller, never coerced into a
set. -/
theorem parse_matches_spec (s : List Char) :
    (Parse s).toOption = ParseSpec s ∧
    ((∃ e, Parse s = .error e) ↔
      (trimSpace s ≠ [] ∧
        ∃ p ∈ (splitComma (trimSpace s)).map trimSpace, tokenVal p = none)) := by
  by_cases ht : trimSpace s = []
  · rw [Parse, ParseSpec]
    simp only [ht, if_pos rfl, exceptToOption_ok]
    refine ⟨rfl, ?_⟩
    constructor
    · rintro ⟨e, he⟩; exact Except.noConfusion he
    · rintro ⟨hcontra, -⟩; exact absurd rfl hcontra
  · by_cases hall : ∀ p ∈ (splitComma (trimSpace s)).map trimSpace,
        (tokenVal p).isSome = true
    · have hok := parseLoop_ok_of_all_good _ ∅ hall
      constructor
      · rw [Parse, ParseSpec]
        simp only [if_neg ht, hok]
        rw [if_pos (List.all_eq_true.mpr hall), exceptToOption_ok]
        simp
      · constructor
        · rintro ⟨e, he⟩
          rw [Parse] at he
          simp only [if_neg ht, hok] at he
          exact Except.noConfusion he
        · rintro ⟨-, p, hp, hbad⟩
          have hsome := hall p hp
          rw [hbad] at hsome
          exact Bool.noConfusion hsome
    · push_neg at hall
      obtain ⟨p, hp, hbad⟩ := hall
      have hbad2 : tokenVal p = none := by
        rcases hv : tokenVal p with _ | n
        · rfl
        · rw [hv] at hbad; exact absurd rfl hbad
      obtain ⟨e, he⟩ := parseLoop_err_of_bad _ ∅ ⟨p, hp, hbad2⟩
      have hfalse : ¬ ((splitComma (trimSpace s)).map trimSpace).all
          (fun q => (tokenVal q).isSome) = true := by
        intro hcontra
        have hsome := List.all_eq_true.mp hcontra p hp
        rw [hbad2] at hsome
        exact Bool.noConfusion hsome
      constructor
      · rw [Parse, ParseSpec]
        simp only [if_neg ht, he]
        rw [if_neg hfalse, exceptToOption_error]
      · exact ⟨fun _ => ⟨ht, p, hp, hbad2⟩,
          fun _ => ⟨e, by rw [Parse]; simp only [if_neg ht, he]⟩⟩

/-! ### C1 and C2: the admission algorithm -/

/-- Unfolding of `MaybeStart` when tasks are running, the request needs
a concrete set of lights, and no running task holds the universal set. -/
lemma maybeStart_unfold (used : GoSet → GoSet) (running : List GoSet)
    (lightSet : GoSet) (hne : running ≠ []) (ks : Finset Int)
    (hu : used lightSet = .conc ks)
    (hrun : running.any GoSet.IsAll = false) :
    MaybeStart used running lightSet =
      if ks = ∅ then .noStart
      else if ks \ inUseOf running = ∅ then .noStart
      else
        match used (.conc (ks \ inUseOf running)) with
        | .all => .panicked
        | .conc fs =>
          if fs = ∅ then .noStart
          else if fs \ (ks \ inUseOf running) = ∅ then
            startResult used (.conc fs)
          else .noStart := by
  rw [MaybeStart, if_neg hne]
  simp only [hu, GoSet.IsNone, GoSet.IsAll, hrun, GoSet.Subtract,
    Bool.false_eq_true, if_false, decide_eq_true_eq]
  by_cases h0 : ks = ∅
  · simp [h0]
  · rw [if_neg h0, if_neg h0]
    by_cases h1 : ks \ inUseOf running = ∅
    · simp [h1]
    · rw [if_neg h1, if_neg h1]
      rcases h2 : used (.conc (ks \ inUseOf running)) with _ | fs
      · simp [GoSet.IsNone, GoSet.Subtract]
      · simp only [GoSet.IsNone, GoSet.Subtract, decide_eq_true_eq]

/-- C1: `MaybeStart` implements the admission algorithm. With no task
running it is exactly `Start`; otherwise it declines when the needed
lights are none or universal, declines when a running task holds the
universal set, declines when `available = needed - inUse` is none,
declines when `finalUsed = UsedLights(available)` is none, and whenever
it starts anything it is a `Start` on `finalUsed`. -/
theorem maybeStart_admission (used : GoSet → GoSet) (running : List GoSet)
    (lightSet : GoSet) :
    (running = [] → MaybeStart used running lightSet = startResult used lightSet) ∧
    (running ≠ [] → (used lightSet).IsNone = true →
      MaybeStart used running lightSet = .noStart) ∧
    (running ≠ [] → (used lightSet).IsAll = true →
      MaybeStart used running lightSet = .noStart) ∧
    (running ≠ [] → running.any GoSet.IsAll = true →
      MaybeStart used running lightSet = .noStart) ∧
    (running ≠ [] → (used lightSet).IsNone = false →
      (used lightSet).IsAll = false → running.any GoSet.IsAll = false →
      (used lightSet).concKeys \ inUseOf running = ∅ →
      MaybeStart used running lightSet = .noStart) ∧
    (running ≠ [] → (used lightSet).IsNone = false →
      (used lightSet).IsAll = false → running.any GoSet.IsAll = false →
      (used lightSet).concKeys \ inUseOf running ≠ ∅ →
      (used (GoSet.conc ((used lightSet).concKeys \ inUseOf running))).IsNone
        = true →
      MaybeStart used running lightSet = .noStart) ∧
    (∀ u, running ≠ [] → MaybeStart used running lightSet = .started u →
      MaybeStart used running lightSet =
        startResult used
          (used (GoSet.conc ((used lightSet).concKeys \ inUseOf running)))) := by
  refine ⟨?_, ?_, ?_, ?_, ?_, ?_, ?_⟩
  · intro h
    rw [MaybeStart, if_pos h]
  · intro hne h
    simp [MaybeStart, hne, h]
  · intro hne h
    simp [MaybeStart, hne, h]
  · intro hne h
    simp [MaybeStart, hne, h]
  · intro hne h2 h3 h4 h5
    rcases hu : used lightSet with _ | ks
    · rw [hu] at h3; exact absurd h3 (by simp [GoSet.IsAll])
    · rw [hu] at h2 h5
      simp only [GoSet.concKeys] at h5
      rw [maybeStart_unfold used running lightSet hne ks hu h4]
      simp only [GoSet.IsNone, decide_eq_false_iff_not] at h2
      rw [if_neg h2, if_pos h5]
  · intro hne h2 h3 h4 h5 h6
    rcases hu : used lightSet with _ | ks
    · rw [hu] at h3; exact absurd h3 (by simp [GoSet.IsAll])
    · rw [hu] at h2 h5 h6
      simp only [GoSet.concKeys] at h5 h6
      rw [maybeStart_unfold used running lightSet hne ks hu h4]
      simp only [GoSet.IsNone, decide_eq_false_iff_not] at h2
      rw [if_neg h2, if_neg h5]
      rcases hfu : used (.conc (ks \ inUseOf running)) with _ | fs
      · rw [hfu] at h6; exact absurd h6 (by simp [GoSet.IsNone])
      · rw [hfu] at h6
        simp only [GoSet.IsNone, decide_eq_true_eq] at h6
        simp [h6]
  · intro u hne hst
    by_cases h4 : running.any GoSet.IsAll = true
    · rw [(by simp [MaybeStart, hne, h4] :
        MaybeStart used running lightSet = .noStart)] at hst
      exact absurd hst (by simp)
    · rcases hu : used lightSet with _ | ks
      · rw [(by simp [MaybeStart, hne, hu, GoSet.IsNone, GoSet.IsAll] :
          MaybeStart used running lightSet = .noStart)] at hst
        exact absurd hst (by simp)
      · have h4f : running.any GoSet.IsAll = false := by
          rcases h : running.any GoSet.IsAll
          · rfl
          · exact absurd h h4
        rw [maybeStart_unfold used running lightSet hne ks hu h4f] at hst ⊢
        simp only [GoSet.concKeys]
        by_cases h0 : ks = ∅
        · rw [if_pos h0] at hst; exact absurd hst (by simp)
        · rw [if_neg h0] at hst ⊢
          by_cases h1 : ks \ inUseOf running = ∅
          · rw [if_pos h1] at hst; exact absurd hst (by simp)
          · rw [if_neg h1] at hst ⊢
            rcases hfu : used (.conc (ks \ inUseOf running)) with _ | fs
            · rw [hfu] at hst
              exact absurd hst (by simp)
            · rw [hfu] at hst
              dsimp only at hst ⊢
              by_cases h2 : fs = ∅
              · rw [if_pos h2] at hst; exact absurd hst (by simp)
              · rw [if_neg h2] at hst ⊢
                by_cases h3 : fs \ (ks \ inUseOf running) = ∅
                · rw [if_pos h3]
                · rw [if_neg h3] at hst; exact absurd hst (by simp)

/-- C1 witness: with nothing running, `MaybeStart` is `Start`. -/
theorem maybeStart_admission_witness :
    MaybeStart (fun s => s) [] (GoSet.conc {1}) =
      startResult (fun s => s) (GoSet.conc {1}) :=
  (maybeStart_admission (fun s => s) [] (GoSet.conc {1})).1 rfl

/-- An action violating the monotonicity contract: offered exactly the
set `{2}` it answers the universal set, otherwise `{2, 5}`. -/
def usedBad : GoSet → GoSet := fun s =>
  if s = GoSet.conc {2} then GoSet.all else GoSet.conc ({2, 5} : Finset Int)

/-- C2 counterexample: with one task running on light 5 and a request
the action maps to `{2, 5}`, the restricted offer is `{2}`, on which
`usedBad` answers the universal set; `MaybeStart` then panics inside
`Subtract` (aborts) instead of declining with no handle. -/
theorem maybeStart_universal_finalUsed_panics :
    MaybeStart usedBad [GoSet.conc {5}] (GoSet.conc ({2, 5} : Finset Int)) =
      MSResult.panicked ∧
    MaybeStart usedBad [GoSet.conc {5}] (GoSet.conc ({2, 5} : Finset Int)) ≠
      MSResult.noStart := by
  decide

/-- C2 amended: when tasks are running and the pipeline reaches the
recomputation of `finalUsed`, a concrete `finalUsed` that is not a
subset of `available` makes `MaybeStart` decline with no handle; a
universal `finalUsed` (a monotonicity violation) makes the final
subtraction panic instead. -/
theorem maybeStart_defends_nonmonotone (used : GoSet → GoSet)
    (running : List GoSet) (lightSet : GoSet)
    (hne : running ≠ [])
    (h2 : (used lightSet).IsNone = false)
    (h3 : (used lightSet).IsAll = false)
    (h4 : running.any GoSet.IsAll = false)
    (h5 : (used lightSet).concKeys \ inUseOf running ≠ ∅) :
    (∀ fs : Finset Int,
        used (GoSet.conc ((used lightSet).concKeys \ inUseOf running)) =
          GoSet.conc fs →
        fs \ ((used lightSet).concKeys \ inUseOf running) ≠ ∅ →
        MaybeStart used running lightSet = .noStart) ∧
    (used (GoSet.conc ((used lightSet).concKeys \ inUseOf running)) =
        GoSet.all →
      MaybeStart used running lightSet = .panicked) := by
  rcases hu : used lightSet with _ | ks
  · rw [hu] at h3; exact absurd h3 (by simp [GoSet.IsAll])
  · rw [hu] at h2 h5
    simp only [GoSet.concKeys] at h5 ⊢
    simp only [GoSet.IsNone, decide_eq_false_iff_not] at h2
    rw [maybeStart_unfold used running lightSet hne ks hu h4]
    rw [if_neg h2, if_neg h5]
    constructor
    · intro fs hfu hdiff
      rw [hfu]
      dsimp only
      by_cases hfs : fs = ∅
      · rw [if_pos hfs]
      · rw [if_neg hfs, if_neg hdiff]
    · intro hfu
      rw [hfu]

/-- C2 amended witness: an action that turns the restricted offer `{2}`
into the concrete non-subset `{2, 7}` is declined. -/
theorem maybeStart_defends_nonmonotone_witness :
    MaybeStart
      (fun s => if s = GoSet.conc {2} then GoSet.conc ({2, 7} : Finset Int)
        else GoSet.conc ({2, 5} : Finset Int))
      [GoSet.conc {5}] (GoSet.conc ({2, 5} : Finset Int)) =
      MSResult.noStart :=
  (maybeStart_defends_nonmonotone
      (fun s => if s = GoSet.conc {2} then GoSet.conc ({2, 7} : Finset Int)
        else GoSet.conc ({2, 5} : Finset Int))
      [GoSet.conc {5}] (GoSet.conc ({2, 5} : Finset Int))
      (by decide) (by decide) (by decide) (by decide) (by decide)).1
    {2, 7} (by decide) (by decide)

/-! ### C6 and C7: timed promotion tasks -/

/-- C6: executing a timed promotion task computes the remaining delay
from its trigger time against the clock of its own execution; if the
delay has already elapsed (zero or negative) it does nothing and
submits nothing; otherwise it suspends for exactly that delay and
submits the bound action with its bound light set to its executor iff
the suspension completed without cancellation. -/
theorem timerTask_do (t : TimerTaskWrapper) (now : Int)
    (sleepCompleted : Bool) :
    (t.startTime - now ≤ 0 →
      t.Do now sleepCompleted = ⟨none, none⟩) ∧
    (0 < t.startTime - now →
      (t.Do now sleepCompleted).sleptFor = some (t.startTime - now) ∧
      ((t.Do now sleepCompleted).submitted = some (t.hId, t.ls) ↔
        sleepCompleted = true) ∧
      (sleepCompleted = false →
        (t.Do now sleepCompleted).submitted = none)) := by
  constructor
  · intro h
    rw [TimerTaskWrapper.Do]
    simp [h]
  · intro h
    rw [TimerTaskWrapper.Do]
    have hneg : ¬ (t.startTime - now ≤ 0) := by omega
    simp only [if_neg hneg]
    rcases sleepCompleted with _ | _
    · simp
    · simp

/-- C6 witness. -/
theorem timerTask_do_witness :
    (TimerTaskWrapper.Do ⟨21, GoSet.conc {5, 7}, 300⟩ 100 true).sleptFor =
      some 200 ∧
    (TimerTaskWrapper.Do ⟨21, GoSet.conc {5, 7}, 300⟩ 100 true).submitted =
      some (21, GoSet.conc {5, 7}) := by
  have h := (timerTask_do ⟨21, GoSet.conc {5, 7}, 300⟩ 100 true).2 (by decide)
  exact ⟨h.1, h.2.1.mpr rfl⟩

/-- C7 counterexample: at exactly one hour five minutes fifty-four
seconds (3954 s) before the trigger, `TimeLeftStr` renders "1:05:55",
not "1:05:54" as the claim states. -/
theorem timeLeftStr_counterexample :
    TimerTaskWrapper.TimeLeftStr ⟨21, GoSet.conc {5, 7}, 3954 * nsSecond⟩ 0 =
      ['1', ':', '0', '5', ':', '5', '5'] ∧
    TimerTaskWrapper.TimeLeftStr ⟨21, GoSet.conc {5, 7}, 3954 * nsSecond⟩ 0 ≠
      ['1', ':', '0', '5', ':', '5', '4'] := by
  decide

lemma mod_hour_div_minute (dn : Nat) :
    dn % 3600000000000 / 60000000000 = dn / 60000000000 % 60 := by
  omega

lemma mod_minute_div_second (dn : Nat) :
    dn % 60000000000 / 1000000000 = dn / 1000000000 % 60 := by
  omega

/-- C7 amended: `TimeLeftStr` adds one second to the remaining time,
floors the result at zero, and renders it as `H:MM:SS` (hours, then
total minutes mod 60, then total seconds mod 60) once the displayed
duration reaches one hour and as `M:SS` otherwise; it renders "0:01" at
exactly the trigger instant, "0:00" one second after the trigger,
"1:05:54" at one hour five minutes fifty-THREE seconds before the
trigger, and "1:05:55" at one hour five minutes fifty-four seconds
before it. -/
theorem timeLeftStr_spec (t : TimerTaskWrapper) (now : Int) :
    (t.TimeLeftStr now =
      (if (max (t.TimeLeft now + nsSecond) 0).toNat ≥ nsHour.toNat then
        itoaNat ((max (t.TimeLeft now + nsSecond) 0).toNat / nsHour.toNat) ++
          ':' :: pad2 ((max (t.TimeLeft now + nsSecond) 0).toNat /
            nsMinute.toNat % 60) ++
          ':' :: pad2 ((max (t.TimeLeft now + nsSecond) 0).toNat /
            nsSecond.toNat % 60)
      else
        itoaNat ((max (t.TimeLeft now + nsSecond) 0).toNat / nsMinute.toNat) ++
          ':' :: pad2 ((max (t.TimeLeft now + nsSecond) 0).toNat /
            nsSecond.toNat % 60))) ∧
    (t.TimeLeft now = 0 → t.TimeLeftStr now = ['0', ':', '0', '1']) ∧
    (t.TimeLeft now = -nsSecond → t.TimeLeftStr now = ['0', ':', '0', '0']) ∧
    (t.TimeLeft now = 3953 * nsSecond →
      t.TimeLeftStr now = ['1', ':', '0', '5', ':', '5', '4']) ∧
    (t.TimeLeft now = 3954 * nsSecond →
      t.TimeLeftStr now = ['1', ':', '0', '5', ':', '5', '5']) := by
  have hmax : (if t.TimeLeft now + nsSecond < 0 then (0 : Int)
      else t.TimeLeft now + nsSecond) = max (t.TimeLeft now + nsSecond) 0 := by
    rcases lt_or_le (t.TimeLeft now + nsSecond) 0 with h | h
    · rw [if_pos h, max_eq_right h.le]
    · rw [if_neg (not_lt.mpr h), max_eq_left h]
  refine ⟨?_, ?_, ?_, ?_, ?_⟩
  · rw [TimerTaskWrapper.TimeLeftStr]
    simp only [hmax]
    rw [show nsHour.toNat = 3600000000000 from rfl,
      show nsMinute.toNat = 60000000000 from rfl,
      show nsSecond.toNat = 1000000000 from rfl,
      mod_hour_div_minute, mod_minute_div_second]
  · intro h
    rw [TimerTaskWrapper.TimeLeftStr, h]
    decide
  · intro h
    rw [TimerTaskWrapper.TimeLeftStr, h]
    decide
  · intro h
    rw [TimerTaskWrapper.TimeLeftStr, h]
    decide
  · intro h
    rw [TimerTaskWrapper.TimeLeftStr, h]
    decide

/-- C7 amended witness: the trigger-instant rendering. -/
theorem timeLeftStr_spec_witness :
    TimerTaskWrapper.TimeLeftStr ⟨21, GoSet.conc {5, 7}, 1000⟩ 1000 =
      ['0', ':', '0', '1'] :=
  (timeLeftStr_spec ⟨21, GoSet.conc {5, 7}, 1000⟩ 1000).2.1 (by decide)

/-! ### C8: the task registry -/

lemma findTaskIdx_eq_none {t : TaskObj} :
    ∀ {l : List (TaskObj × Nat)}, (∀ p ∈ l, p.1.ref ≠ t.ref) →
      findTaskIdx t l = none := by
  intro l
  induction l with
  | nil => intro _; rfl
  | cons p ps ih =>
    intro h
    rw [findTaskIdx, if_neg (h p (List.mem_cons_self _ _)),
      ih (fun q hq => h q (List.mem_cons_of_mem _ hq))]
    rfl

lemma findTaskIdx_first {t : TaskObj} :
    ∀ (pre : List (TaskObj × Nat)) (p : TaskObj × Nat)
      (post : List (TaskObj × Nat)), p.1.ref = t.ref →
      (∀ q ∈ pre, q.1.ref ≠ t.ref) →
      findTaskIdx t (pre ++ p :: post) = some pre.length := by
  intro pre
  induction pre with
  | nil =>
    intro p post hp _
    rw [List.nil_append, findTaskIdx, if_pos hp]
    rfl
  | cons q qs ih =>
    intro p post hp hpre
    rw [List.cons_append, findTaskIdx,
      if_neg (hpre q (List.mem_cons_self _ _)),
      ih p post hp (fun r hr => hpre r (List.mem_cons_of_mem _ hr))]
    rfl

/-- C8: `Remove` deletes the first stored pairing whose task is the
same object (reference identity; the search predicate never looks at
the task content), keeps every other pairing in its original relative
order, and is a no-op when no pairing holds the task. -/
theorem taskCollection_remove (c : TaskCollection) (t : TaskObj) :
    ((∀ p ∈ c.tasks, p.1.ref ≠ t.ref) → c.Remove t = c) ∧
    (∀ pre p post, c.tasks = pre ++ p :: post → p.1.ref = t.ref →
      (∀ q ∈ pre, q.1.ref ≠ t.ref) →
      (c.Remove t).tasks = pre ++ post) := by
  constructor
  · intro h
    rw [TaskCollection.Remove, findTaskIdx_eq_none h]
  · intro pre p post hc hp hpre
    rw [TaskCollection.Remove, hc, findTaskIdx_first pre p post hp hpre]
    dsimp only
    have hdrop : (pre ++ p :: post).drop (pre.length + 1) = post := by
      rw [show pre ++ p :: post = (pre ++ [p]) ++ post by simp,
        show pre.length + 1 = (pre ++ [p]).length by simp,
        List.drop_left]
    have htake : (pre ++ p :: post).take pre.length = pre :=
      List.take_left _ _
    rw [htake, hdrop]

/-- C8 witness: two pairings whose tasks are equal in content but
distinct objects; `Remove` deletes exactly the identical object. -/
theorem taskCollection_remove_witness :
    (TaskCollection.Remove ⟨[(⟨1, ['a']⟩, 10), (⟨2, ['a']⟩, 20)]⟩
        ⟨2, ['a']⟩).tasks = [(⟨1, ['a']⟩, 10)] := by
  have h := (taskCollection_remove ⟨[(⟨1, ['a']⟩, 10), (⟨2, ['a']⟩, 20)]⟩
      ⟨2, ['a']⟩).2 [(⟨1, ['a']⟩, 10)] (⟨2, ['a']⟩, 20) [] rfl rfl
    (by decide)
  simpa using h

/-! ### C10: `New` performs no validation -/

/-- C10: `New` accepts zero and negative ids without validation,
producing concrete sets whose `String` renderings fail to re-parse:
`Parse` rejects them with the positivity error. -/
theorem new_unvalidated :
    GoSet.New [0] = GoSet.conc {0} ∧
    GoSet.New [-3] = GoSet.conc {-3} ∧
    (GoSet.New [0]).string = ['0'] ∧
    (GoSet.New [-3]).string = ['-', '3'] ∧
    Parse ['0'] = .error .nonPositive ∧
    Parse ['-', '3'] = .error .nonPositive := by
  have h0 : GoSet.New [0] = GoSet.conc {0} := by decide
  have h3 : GoSet.New [-3] = GoSet.conc {-3} := by decide
  refine ⟨h0, h3, ?_, ?_, by decide, by decide⟩
  · rw [h0]
    simp only [GoSet.string, GoSet.Slice, Finset.sort_singleton]
    decide
  · rw [h3]
    simp only [GoSet.string, GoSet.Slice, Finset.sort_singleton]
    decide

end Marvin


